import Mathlib

/-
Verification of the position/range geometry model and the text-document
adapter of the vscode-languageserver-node Atom shim.

Sources embedded here:
- src/client/src/protocolCompletionItem.ts (the vscode-shim module):
  Position, Range, Selection, TextEdit, WorkspaceEdit.
- src/client/src/utils/atom-shim.ts: AtomTextDocument (validatePosition,
  offsetAt, positionAt, save, version counter).

JavaScript numbers used as line/character coordinates are modelled as Int
(all the code performs on them are comparisons and no arithmetic that could
overflow a double in scope here); string keys of plain objects are modelled
as association lists with first-match lookup.
-/

namespace Shim

/-- A (line, character) coordinate. In the source the constructor rejects
negative components, but validatePosition in atom-shim.ts defensively
re-checks negativity, so the model keeps raw Int fields. -/
structure Position where
  line : Int
  character : Int
deriving DecidableEq

/-- Source Position.isBefore: compare by line, then by character. -/
def Position.isBefore (a b : Position) : Bool :=
  if a.line < b.line then true
  else if b.line < a.line then false
  else decide (a.character < b.character)

/-- Source Position.isBeforeOrEqual. -/
def Position.isBeforeOrEqual (a b : Position) : Bool :=
  if a.line < b.line then true
  else if b.line < a.line then false
  else decide (a.character ≤ b.character)

/-- Source Position.isAfter, defined as the negation of isBeforeOrEqual. -/
def Position.isAfter (a b : Position) : Bool :=
  !(Position.isBeforeOrEqual a b)

/-- Source Position.isAfterOrEqual, defined as the negation of isBefore. -/
def Position.isAfterOrEqual (a b : Position) : Bool :=
  !(Position.isBefore a b)

/-- Source Position.isEqual: component-wise equality. -/
def Position.isEqual (a b : Position) : Bool :=
  decide (a.line = b.line) && decide (a.character = b.character)

/-- Two-argument instantiation of the variadic Position.Min: the result
starts as the last argument (popped) and the single loop step replaces it
by the first argument when that one isBefore it. -/
def Position.minOf2 (x y : Position) : Position :=
  if Position.isBefore x y then x else y

/-- Two-argument instantiation of the variadic Position.Max, with isAfter
as the loop test. -/
def Position.maxOf2 (x y : Position) : Position :=
  if Position.isAfter x y then x else y

/-- An ordered pair of Positions. The source field named end is called
endPos here because end is a Lean keyword. -/
structure Range where
  start : Position
  endPos : Position
deriving DecidableEq

/-- Source Range constructor on two Positions: keep the order when
start.isBefore(end), otherwise swap the endpoints; it never rejects. -/
def Range.fromPositions (s e : Position) : Range :=
  if Position.isBefore s e then ⟨s, e⟩ else ⟨e, s⟩

/-- The Range invariant stated by the spec: start is before or equal to
the end. -/
def Range.valid (r : Range) : Prop :=
  Position.isBeforeOrEqual r.start r.endPos = true

instance (r : Range) : Decidable (Range.valid r) := by
  unfold Range.valid; infer_instance

/-- Source Range.contains on a Position: false when the position is before
start or the end is before the position. -/
def Range.containsPos (r : Range) (p : Position) : Bool :=
  !(Position.isBefore p r.start) && !(Position.isBefore r.endPos p)

/-- Source Range.contains on a Range: both endpoints contained. -/
def Range.containsRange (r o : Range) : Bool :=
  Range.containsPos r o.start && Range.containsPos r o.endPos

/-- Source Range.intersection: the overlap [max of starts, min of ends],
or no value when that start isAfter that end. -/
def Range.intersection (r o : Range) : Option Range :=
  let s := Position.maxOf2 o.start r.start
  let e := Position.minOf2 o.endPos r.endPos
  if Position.isAfter s e then none else some (Range.fromPositions s e)

/-- Source Range.union: short-circuit to a containing side, else the span
from the minimum start to the maximum end, built by the constructor. -/
def Range.union (r o : Range) : Range :=
  if Range.containsRange r o then r
  else if Range.containsRange o r then o
  else
    Range.fromPositions (Position.minOf2 o.start r.start)
      (Position.maxOf2 o.endPos r.endPos)

/-- Source Range.with: return this range when both replacement endpoints
equal the current ones, else rebuild through the constructor. -/
def Range.withEnds (r : Range) (s e : Position) : Range :=
  if Position.isEqual s r.start && Position.isEqual e r.endPos then r
  else Range.fromPositions s e

/-- Source Range.isEmpty: start equals end. -/
def Range.isEmptyR (r : Range) : Bool :=
  Position.isEqual r.start r.endPos

/-- A Selection keeps the two gestural endpoints given to the constructor;
the inherited Range part is rebuilt from them on demand below. -/
structure Selection where
  anchor : Position
  active : Position
deriving DecidableEq

/-- The geometric start of a Selection, produced by the super(anchor,
active) call of the source constructor, i.e. Range normalization. -/
def Selection.startP (s : Selection) : Position :=
  (Range.fromPositions s.anchor s.active).start

/-- The geometric end of a Selection. -/
def Selection.endP (s : Selection) : Position :=
  (Range.fromPositions s.anchor s.active).endPos

/-- Source Selection.isReversed tests reference identity of the anchor and
the stored end. The end field holds the anchor object exactly when the
anchor is not strictly before the active point, and otherwise holds the
strictly greater active object, so identity coincides with value equality
of the anchor and the geometric end. -/
def Selection.isReversed (s : Selection) : Bool :=
  decide (s.anchor = Selection.endP s)

section GeometryLemmas

lemma isBefore_iff (a b : Position) :
    Position.isBefore a b = true ↔
      (a.line < b.line ∨ (a.line = b.line ∧ a.character < b.character)) := by
  unfold Position.isBefore
  split_ifs <;> simp <;> omega

lemma isBeforeOrEqual_iff (a b : Position) :
    Position.isBeforeOrEqual a b = true ↔
      (a.line < b.line ∨ (a.line = b.line ∧ a.character ≤ b.character)) := by
  unfold Position.isBeforeOrEqual
  split_ifs <;> simp <;> omega

lemma isAfter_iff (a b : Position) :
    Position.isAfter a b = true ↔
      (b.line < a.line ∨ (a.line = b.line ∧ b.character < a.character)) := by
  unfold Position.isAfter
  rw [Bool.not_eq_true']
  rw [← Bool.not_eq_true (Position.isBeforeOrEqual a b)]
  rw [isBeforeOrEqual_iff]
  omega

lemma fromPositions_valid (a b : Position) :
    Range.valid (Range.fromPositions a b) := by
  unfold Range.fromPositions Range.valid
  split_ifs with h
  · simp only
    rw [isBeforeOrEqual_iff]
    rw [isBefore_iff] at h
    omega
  · simp only
    rw [isBeforeOrEqual_iff]
    rw [isBefore_iff] at h
    push_neg at h
    omega

lemma minOf2_comm (x y : Position) :
    Position.minOf2 x y = Position.minOf2 y x := by
  obtain ⟨xl, xc⟩ := x
  obtain ⟨yl, yc⟩ := y
  unfold Position.minOf2
  by_cases h1 : Position.isBefore ⟨xl, xc⟩ ⟨yl, yc⟩ = true <;>
    by_cases h2 : Position.isBefore ⟨yl, yc⟩ ⟨xl, xc⟩ = true
  · rw [if_pos h1, if_pos h2]
    rw [isBefore_iff] at h1 h2
    dsimp only at h1 h2
    simp only [Position.mk.injEq]
    omega
  · rw [if_pos h1, if_neg h2]
  · rw [if_neg h1, if_pos h2]
  · rw [if_neg h1, if_neg h2]
    rw [isBefore_iff] at h1 h2
    dsimp only at h1 h2
    simp only [Position.mk.injEq]
    omega

lemma maxOf2_comm (x y : Position) :
    Position.maxOf2 x y = Position.maxOf2 y x := by
  obtain ⟨xl, xc⟩ := x
  obtain ⟨yl, yc⟩ := y
  unfold Position.maxOf2
  by_cases h1 : Position.isAfter ⟨xl, xc⟩ ⟨yl, yc⟩ = true <;>
    by_cases h2 : Position.isAfter ⟨yl, yc⟩ ⟨xl, xc⟩ = true
  · rw [if_pos h1, if_pos h2]
    rw [isAfter_iff] at h1 h2
    dsimp only at h1 h2
    simp only [Position.mk.injEq]
    omega
  · rw [if_pos h1, if_neg h2]
  · rw [if_neg h1, if_pos h2]
  · rw [if_neg h1, if_neg h2]
    rw [isAfter_iff] at h1 h2
    dsimp only at h1 h2
    simp only [Position.mk.injEq]
    omega

end GeometryLemmas

/-- C2: for every pair of Positions, in either argument order, the Range
constructor yields start before-or-equal end and never rejects; with p1
strictly before p2 both argument orders yield the same range; and the
with, union and intersection operations also return ranges satisfying the
invariant. -/
theorem C2_range_normalization :
    (∀ p1 p2 : Position, Range.valid (Range.fromPositions p1 p2)) ∧
    (∀ p1 p2 : Position, Position.isBefore p1 p2 = true →
      Range.fromPositions p2 p1 = Range.fromPositions p1 p2) ∧
    (∀ (r : Range) (s e : Position), Range.valid r →
      Range.valid (Range.withEnds r s e)) ∧
    (∀ r o : Range, Range.valid r → Range.valid o →
      Range.valid (Range.union r o)) ∧
    (∀ (r o x : Range), Range.intersection r o = some x → Range.valid x) := by
  refine ⟨fun p1 p2 => fromPositions_valid p1 p2, ?_, ?_, ?_, ?_⟩
  · intro p1 p2 h
    obtain ⟨al, ac⟩ := p1
    obtain ⟨bl, bc⟩ := p2
    unfold Range.fromPositions
    have h2 : ¬ (Position.isBefore ⟨bl, bc⟩ ⟨al, ac⟩ = true) := by
      rw [isBefore_iff] at h ⊢
      dsimp only at h ⊢
      omega
    rw [if_neg h2, if_pos h]
  · intro r s e hr
    unfold Range.withEnds
    split_ifs with h
    · exact hr
    · exact fromPositions_valid s e
  · intro r o hr ho
    unfold Range.union
    split_ifs with h1 h2
    · exact hr
    · exact ho
    · exact fromPositions_valid _ _
  · intro r o x h
    unfold Range.intersection at h
    dsimp only at h
    by_cases hc : Position.isAfter (Position.maxOf2 o.start r.start)
        (Position.minOf2 o.endPos r.endPos) = true
    · rw [if_pos hc] at h
      exact absurd h (by simp)
    · rw [if_neg hc] at h
      simp only [Option.some.injEq] at h
      rw [← h]
      exact fromPositions_valid _ _

/-- Witness for C2 at concrete positions and ranges, one instance per
conjunct. -/
theorem C2_range_normalization_witness :
    Range.valid (Range.fromPositions ⟨1, 2⟩ ⟨0, 7⟩) ∧
    Range.fromPositions ⟨2, 4⟩ ⟨1, 3⟩ = Range.fromPositions ⟨1, 3⟩ ⟨2, 4⟩ ∧
    Range.valid (Range.withEnds ⟨⟨0, 0⟩, ⟨1, 1⟩⟩ ⟨2, 2⟩ ⟨0, 5⟩) ∧
    Range.valid (Range.union ⟨⟨0, 0⟩, ⟨1, 1⟩⟩ ⟨⟨0, 5⟩, ⟨2, 0⟩⟩) ∧
    Range.valid ⟨⟨0, 5⟩, ⟨1, 1⟩⟩ :=
  ⟨C2_range_normalization.1 ⟨1, 2⟩ ⟨0, 7⟩,
    C2_range_normalization.2.1 ⟨1, 3⟩ ⟨2, 4⟩ (by decide),
    C2_range_normalization.2.2.1 ⟨⟨0, 0⟩, ⟨1, 1⟩⟩ ⟨2, 2⟩ ⟨0, 5⟩ (by decide),
    C2_range_normalization.2.2.2.1 ⟨⟨0, 0⟩, ⟨1, 1⟩⟩ ⟨⟨0, 5⟩, ⟨2, 0⟩⟩
      (by decide) (by decide),
    C2_range_normalization.2.2.2.2 ⟨⟨0, 0⟩, ⟨1, 1⟩⟩ ⟨⟨0, 5⟩, ⟨2, 0⟩⟩
      ⟨⟨0, 5⟩, ⟨1, 1⟩⟩ (by decide)⟩

/-- C4: intersection is commutative (here proved as literal equality of
the two results, which implies both absent or geometrically equal);
touching ranges produce the valid empty intersection at the touch point,
because the overlap test uses isAfter and not isAfterOrEqual; disjoint
ranges produce no value. -/
theorem C4_intersection_commutative_touching :
    (∀ a b : Range, Range.intersection a b = Range.intersection b a) ∧
    Range.intersection ⟨⟨0, 0⟩, ⟨0, 5⟩⟩ ⟨⟨0, 5⟩, ⟨0, 10⟩⟩ =
      some ⟨⟨0, 5⟩, ⟨0, 5⟩⟩ ∧
    Range.intersection ⟨⟨0, 0⟩, ⟨0, 5⟩⟩ ⟨⟨0, 6⟩, ⟨0, 10⟩⟩ = none := by
  refine ⟨?_, by decide, by decide⟩
  intro a b
  unfold Range.intersection
  rw [maxOf2_comm b.start a.start, minOf2_comm b.endPos a.endPos]

/-- C7: a Selection reports anchor and active exactly as constructed, its
inherited start and end are those two endpoints geometrically ordered, and
isReversed holds exactly when the anchor is the (geometric) end point,
equivalently when the anchor is not strictly before the active point. -/
theorem C7_selection_anchor_active :
    ∀ a b : Position,
      (Selection.mk a b).anchor = a ∧
      (Selection.mk a b).active = b ∧
      Position.isBeforeOrEqual (Selection.startP ⟨a, b⟩)
        (Selection.endP ⟨a, b⟩) = true ∧
      ((Selection.startP ⟨a, b⟩ = a ∧ Selection.endP ⟨a, b⟩ = b) ∨
        (Selection.startP ⟨a, b⟩ = b ∧ Selection.endP ⟨a, b⟩ = a)) ∧
      (Selection.isReversed ⟨a, b⟩ = true ↔
        (Selection.mk a b).anchor = Selection.endP ⟨a, b⟩) ∧
      (Selection.isReversed ⟨a, b⟩ = true ↔
        Position.isBefore a b = false) := by
  intro a b
  refine ⟨rfl, rfl, fromPositions_valid a b, ?_, ?_, ?_⟩
  · unfold Selection.startP Selection.endP Range.fromPositions
    split_ifs with h
    · exact Or.inl ⟨rfl, rfl⟩
    · exact Or.inr ⟨rfl, rfl⟩
  · unfold Selection.isReversed
    simp
  · obtain ⟨al, ac⟩ := a
    obtain ⟨bl, bc⟩ := b
    unfold Selection.isReversed Selection.endP Range.fromPositions
    dsimp only
    by_cases h : Position.isBefore ⟨al, ac⟩ ⟨bl, bc⟩ = true
    · rw [if_pos h, h]
      simp only [decide_eq_true_eq]
      constructor
      · intro hab
        rw [isBefore_iff] at h
        dsimp only at h
        simp only [Position.mk.injEq] at hab
        omega
      · intro hfalse
        exact absurd hfalse (by simp)
    · rw [if_neg h]
      rw [Bool.not_eq_true] at h
      simp [h]

/-- Length of the line at a Nat index of the buffer, as used by the code
through getLines()[i].length. The zero default is unreachable at every use
below because the index is always in bounds there. -/
def lineLen (lines : List String) (i : Nat) : Nat :=
  ((lines[i]?).map String.length).getD 0

/-- AtomTextDocument.validatePosition from atom-shim.ts: the clamping
policy applied in source order, with the document modelled as its list of
lines as returned by getLines(). -/
def validatePosition (lines : List String) (p : Position) : Position :=
  if p.line < 0 then ⟨0, 0⟩
  else if (lines.length : Int) ≤ p.line then
    ⟨(lines.length : Int) - 1, (lineLen lines (lines.length - 1) : Int)⟩
  else if p.character < 0 then ⟨p.line, 0⟩
  else if (lineLen lines p.line.toNat : Int) < p.character then
    ⟨p.line, (lineLen lines p.line.toNat : Int)⟩
  else p

/-- The hasChanged flag computed by validatePosition: true exactly in the
branches that clamp. When it is false the source returns the original
Position instance unchanged. -/
def validateChanged (lines : List String) (p : Position) : Bool :=
  if p.line < 0 then true
  else if (lines.length : Int) ≤ p.line then true
  else if p.character < 0 then true
  else decide ((lineLen lines p.line.toNat : Int) < p.character)

section ValidateLemmas

lemma validate_unchanged (lines : List String) (p : Position)
    (h : validateChanged lines p = false) : validatePosition lines p = p := by
  unfold validateChanged at h
  unfold validatePosition
  split_ifs at h ⊢ with h1 h2 h3 h4 <;> simp_all

lemma lineLen_nonneg (lines : List String) (i : Nat) :
    (0 : Int) ≤ (lineLen lines i : Int) := by
  exact_mod_cast Nat.zero_le _

lemma validateChanged_false_iff (lines : List String) (l c : Int) :
    validateChanged lines ⟨l, c⟩ = false ↔
      (0 ≤ l ∧ l < (lines.length : Int) ∧ 0 ≤ c ∧
        c ≤ (lineLen lines l.toNat : Int)) := by
  unfold validateChanged
  dsimp only
  split_ifs with h1 h2 h3 <;> simp <;> omega

lemma validate_inBounds (lines : List String) (hne : lines ≠ [])
    (p : Position) : validateChanged lines (validatePosition lines p) = false := by
  have hn : 0 < lines.length := List.length_pos.mpr hne
  obtain ⟨l, c⟩ := p
  unfold validatePosition
  dsimp only
  split_ifs with h1 h2 h3 h4
  · rw [validateChanged_false_iff]
    omega
  · rw [validateChanged_false_iff]
    have et : ((lines.length : Int) - 1).toNat = lines.length - 1 := by omega
    rw [et]
    omega
  · rw [validateChanged_false_iff]
    omega
  · rw [validateChanged_false_iff]
    omega
  · rw [validateChanged_false_iff]
    omega

lemma validatePosition_idem (lines : List String) (hne : lines ≠ [])
    (p : Position) :
    validatePosition lines (validatePosition lines p) =
      validatePosition lines p :=
  validate_unchanged lines _ (validate_inBounds lines hne p)

end ValidateLemmas

/-- C1: for every document (a nonempty line list, as getLines() always is)
and every position, validatePosition applies the clamping policy in source
order: a negative line clamps to (0, 0); a line at or past the line count
clamps to the last line and its length; otherwise a negative character
clamps to 0 and a character past the line length clamps to the line
length; when nothing changed the input comes back unchanged (the source
returns the very same instance); and the operation is idempotent. -/
theorem C1_validatePosition_policy :
    ∀ (lines : List String) (p : Position), lines ≠ [] →
      (p.line < 0 → validatePosition lines p = ⟨0, 0⟩) ∧
      ((lines.length : Int) ≤ p.line →
        validatePosition lines p =
          ⟨(lines.length : Int) - 1,
            (lineLen lines (lines.length - 1) : Int)⟩) ∧
      (0 ≤ p.line → p.line < (lines.length : Int) → p.character < 0 →
        validatePosition lines p = ⟨p.line, 0⟩) ∧
      (0 ≤ p.line → p.line < (lines.length : Int) →
        (lineLen lines p.line.toNat : Int) < p.character →
        validatePosition lines p =
          ⟨p.line, (lineLen lines p.line.toNat : Int)⟩) ∧
      (validateChanged lines p = false → validatePosition lines p = p) ∧
      validatePosition lines (validatePosition lines p) =
        validatePosition lines p := by
  intro lines p hne
  have hn : 0 < lines.length := List.length_pos.mpr hne
  obtain ⟨l, c⟩ := p
  refine ⟨?_, ?_, ?_, ?_, validate_unchanged lines ⟨l, c⟩,
    validatePosition_idem lines hne ⟨l, c⟩⟩
  · intro h
    unfold validatePosition
    rw [if_pos h]
  · intro h
    unfold validatePosition
    dsimp only at h ⊢
    rw [if_neg (by omega), if_pos h]
  · intro h0 h1 h2
    unfold validatePosition
    dsimp only at *
    rw [if_neg (by omega), if_neg (by omega), if_pos h2]
  · intro h0 h1 h2
    unfold validatePosition
    dsimp only at *
    rw [if_neg (by omega), if_neg (by omega), if_neg (by omega), if_pos h2]

/-- Witness for C1 at the document with lines abc and def and the
out-of-range position (5, 9). -/
theorem C1_validatePosition_policy_witness :
    (((5 : Int) < 0 →
        validatePosition ["abc", "def"] ⟨5, 9⟩ = ⟨0, 0⟩) ∧
      (((["abc", "def"] : List String).length : Int) ≤ 5 →
        validatePosition ["abc", "def"] ⟨5, 9⟩ =
          ⟨((["abc", "def"] : List String).length : Int) - 1,
            (lineLen ["abc", "def"]
              ((["abc", "def"] : List String).length - 1) : Int)⟩) ∧
      (0 ≤ (5 : Int) →
        (5 : Int) < ((["abc", "def"] : List String).length : Int) →
        (9 : Int) < 0 →
        validatePosition ["abc", "def"] ⟨5, 9⟩ = ⟨5, 0⟩) ∧
      (0 ≤ (5 : Int) →
        (5 : Int) < ((["abc", "def"] : List String).length : Int) →
        (lineLen ["abc", "def"] ((5 : Int)).toNat : Int) < 9 →
        validatePosition ["abc", "def"] ⟨5, 9⟩ =
          ⟨5, (lineLen ["abc", "def"] ((5 : Int)).toNat : Int)⟩) ∧
      (validateChanged ["abc", "def"] ⟨5, 9⟩ = false →
        validatePosition ["abc", "def"] ⟨5, 9⟩ = ⟨5, 9⟩) ∧
      validatePosition ["abc", "def"]
          (validatePosition ["abc", "def"] ⟨5, 9⟩) =
        validatePosition ["abc", "def"] ⟨5, 9⟩) :=
  C1_validatePosition_policy ["abc", "def"] ⟨5, 9⟩ (by decide)

/-- Flat offset of an already-clipped (line, character) coordinate: the
lengths of the lines above it plus one per line terminator plus the
character column. -/
def flattenClipped : List String → Nat → Nat → Nat
  | _, 0, c => c
  | [], Nat.succ _, c => c
  | l :: rest, Nat.succ i, c => l.length + 1 + flattenClipped rest i c

/-- Modelled from the spec: the adapter delegates offsetAt to the host
buffer method characterIndexForPosition of the external text-buffer
package, which is not part of this repository. The spec states that
offsetAt converts a structured position to a flat character offset into
the whole-document text and that out-of-range positions clamp to the
document bounds per the documented clamping policy, so the model clips
with that policy and then flattens. -/
def characterIndexForPosition (lines : List String) (p : Position) : Nat :=
  let q := validatePosition lines p
  flattenClipped lines q.line.toNat q.character.toNat

/-- AtomTextDocument.offsetAt: convert and delegate to the host buffer. -/
def offsetAt (lines : List String) (p : Position) : Nat :=
  characterIndexForPosition lines p

/-- Total character count of the document, line terminators included. -/
def totalLength : List String → Nat
  | [] => 0
  | [l] => l.length
  | l :: rest => l.length + 1 + totalLength rest

/-- Position of an already-clamped flat offset: walk the lines,
subtracting each line length plus its terminator. -/
def posForOffset : List String → Int → Nat → Position
  | [], i, _ => ⟨i, 0⟩
  | [l], i, r => ⟨i, (min r l.length : Nat)⟩
  | l :: rest, i, r =>
    if r ≤ l.length then ⟨i, (r : Int)⟩
    else posForOffset rest (i + 1) (r - (l.length + 1))

/-- Modelled from the spec: the adapter delegates positionAt to the host
buffer method positionForCharacterIndex of the external text-buffer
package. The spec states the conversion is the inverse of offsetAt, that
an offset beyond the document end clamps to the last valid position and
that a negative offset clamps to (0, 0). -/
def positionForCharacterIndex (lines : List String) (off : Int) : Position :=
  let r : Nat := if off < 0 then 0 else min off.toNat (totalLength lines)
  posForOffset lines 0 r

/-- AtomTextDocument.positionAt: delegate to the host buffer and convert
the resulting point. -/
def positionAt (lines : List String) (off : Int) : Position :=
  positionForCharacterIndex lines off

/-- The concrete two-line document of the round-trip property. -/
def docAbcDef : List String := ["abc", "def"]

/-- C3: on the document with content abc, newline, def, positionAt and
offsetAt are mutually inverse on in-bounds arguments: every in-bounds
position (line 0 or 1, character 0 to 3) survives the round trip through
offsetAt then positionAt, and every in-bounds offset (0 to 7) survives the
round trip through positionAt then offsetAt. -/
theorem C3_offset_position_roundtrip :
    (∀ l c : Int, 0 ≤ l → l < 2 → 0 ≤ c → c ≤ 3 →
      positionAt docAbcDef ((offsetAt docAbcDef ⟨l, c⟩ : Nat) : Int) =
        ⟨l, c⟩) ∧
    (∀ off : Int, 0 ≤ off → off ≤ 7 →
      ((offsetAt docAbcDef (positionAt docAbcDef off) : Nat) : Int) = off) := by
  constructor
  · intro l c h0 h1 h2 h3
    interval_cases l <;> interval_cases c <;> decide
  · intro off h0 h1
    interval_cases off <;> decide

/-- Witness for C3 at position (1, 2) and offset 5. -/
theorem C3_offset_position_roundtrip_witness :
    positionAt docAbcDef ((offsetAt docAbcDef ⟨1, 2⟩ : Nat) : Int) =
        ⟨1, 2⟩ ∧
      ((offsetAt docAbcDef (positionAt docAbcDef 5) : Nat) : Int) = 5 :=
  ⟨C3_offset_position_roundtrip.1 1 2 (by decide) (by decide) (by decide)
      (by decide),
    C3_offset_position_roundtrip.2 5 (by decide) (by decide)⟩

/-- C5: for every position, in range or not, offsetAt equals offsetAt of
the validated position, because the clamping applied on the way to a flat
offset is exactly the validatePosition policy and that policy is
idempotent; in particular the conversion is total and never throws. -/
theorem C5_offsetAt_validates :
    ∀ (lines : List String) (p : Position), lines ≠ [] →
      offsetAt lines p = offsetAt lines (validatePosition lines p) := by
  intro lines p hne
  unfold offsetAt characterIndexForPosition
  rw [validatePosition_idem lines hne p]

/-- Witness for C5 at the document with lines abc and def and the
out-of-range position (9, 9). -/
theorem C5_offsetAt_validates_witness :
    offsetAt ["abc", "def"] ⟨9, 9⟩ =
      offsetAt ["abc", "def"] (validatePosition ["abc", "def"] ⟨9, 9⟩) :=
  C5_offsetAt_validates ["abc", "def"] ⟨9, 9⟩ (by decide)

/-- Outcome of a save request at the host: either the host confirms the
save by firing onDidSave, or it does not (nothing to save, or the save
failed), in which case no onDidSave event arrives for this request. -/
inductive SaveOutcome
  | didSave
  | noSave
deriving DecidableEq

/-- AtomTextDocument.save from atom-shim.ts, as the eventual settled value
of the returned promise: the executor subscribes to onDidSave, resolves
true inside that listener and triggers the host save; no other resolution
or rejection path exists, so when the host never fires onDidSave the
promise never settles, modelled as none. -/
def savePromiseResult : SaveOutcome → Option Bool
  | SaveOutcome.didSave => some true
  | SaveOutcome.noSave => none

/-- C6 evaluation: when the host does not perform the save, the promise
returned by save never settles instead of resolving false, and in fact no
host outcome at all makes it resolve false, contradicting the claim and
the documentation comment of the method itself. -/
theorem C6_save_never_resolves_false :
    savePromiseResult SaveOutcome.noSave = none ∧
      ∀ o : SaveOutcome, savePromiseResult o ≠ some false := by
  refine ⟨rfl, ?_⟩
  intro o
  cases o <;> simp [savePromiseResult]

/-- The version baseline assigned in the AtomTextDocument constructor. -/
def initialVersion : Int := 1

/-- The onDidChange subscription installed by the constructor: every
host-reported content change, undo and redo included, runs this
increment on the stored version. -/
def onDidChangeStep (v : Int) : Int := v + 1

/-- The version observed after n host change notifications. -/
def versionAfter : Nat → Int
  | 0 => initialVersion
  | Nat.succ n => onDidChangeStep (versionAfter n)

/-- C9: the document version starts at baseline 1 at construction and is
strictly greater after every host-reported change notification than
before it, so it strictly increases and in particular never decrements on
undo or redo, which the host also reports through onDidChange. -/
theorem C9_version_strictly_increases :
    versionAfter 0 = 1 ∧
      ∀ n : Nat, versionAfter n < versionAfter (n + 1) := by
  refine ⟨rfl, ?_⟩
  intro n
  show versionAfter n < onDidChangeStep (versionAfter n)
  unfold onDidChangeStep
  omega

/-- The resource identifier, kept by its canonical string form: the code
keys everything on uri.toString() and the Uri class adds nothing the
WorkspaceEdit operations observe beyond that string. -/
abbrev Uri := String

/-- Source TextEdit: a range plus replacement text. The setters only
reject a missing range, which a total model cannot produce. -/
structure TextEdit where
  range : Range
  newText : String
deriving DecidableEq

/-- TextEdit.replace static constructor. -/
def TextEdit.replaceE (r : Range) (t : String) : TextEdit := ⟨r, t⟩

/-- TextEdit.insert: replace at an empty range. -/
def TextEdit.insertE (p : Position) (t : String) : TextEdit :=
  TextEdit.replaceE (Range.fromPositions p p) t

/-- TextEdit.delete: replace with empty text. -/
def TextEdit.deleteE (r : Range) : TextEdit := TextEdit.replaceE r ""

/-- Source WorkspaceEdit state: the ordered entry list of the values
array and the string-keyed index object mapping a uri string to the entry
position, modelled as a first-match association list. -/
structure WorkspaceEdit where
  values : List (Uri × List TextEdit)
  index : List (String × Nat)
deriving DecidableEq

/-- A freshly constructed WorkspaceEdit. -/
def emptyWE : WorkspaceEdit := ⟨[], []⟩

/-- First-match lookup in the index object. -/
def lookupIdx : List (String × Nat) → String → Option Nat
  | [], _ => none
  | e :: rest, s => if e.1 = s then some e.2 else lookupIdx rest s

/-- In-place overwrite of the edit list of the entry at a position,
leaving the stored uri object alone, as the assignment
to the second slot of the entry does in the source. -/
def setSnd : List (Uri × List TextEdit) → Nat → List TextEdit →
    List (Uri × List TextEdit)
  | [], _, _ => []
  | p :: rest, 0, es => (p.1, es) :: rest
  | p :: rest, Nat.succ n, es => p :: setSnd rest n es

/-- In-place push of one TextEdit onto the edit list of the entry at a
position, as array.push does on the aliased stored array. -/
def pushSnd : List (Uri × List TextEdit) → Nat → TextEdit →
    List (Uri × List TextEdit)
  | [], _, _ => []
  | p :: rest, 0, e => (p.1, p.2 ++ [e]) :: rest
  | p :: rest, Nat.succ n, e => p :: pushSnd rest n e

/-- The result type of WorkspaceEdit.get: the source expression returns
the stored array when the index holds the key and the boolean false
otherwise. -/
inductive GetResult
  | edits (es : List TextEdit)
  | boolFalse
deriving DecidableEq

namespace WorkspaceEdit

/-- Source WorkspaceEdit.has: the index holds the key. -/
def has (w : WorkspaceEdit) (u : Uri) : Bool :=
  (lookupIdx w.index u).isSome

/-- Source WorkspaceEdit.set: on a new key push a fresh entry and record
its position; on an existing key overwrite that entry wholesale. -/
def set (w : WorkspaceEdit) (u : Uri) (es : List TextEdit) : WorkspaceEdit :=
  match lookupIdx w.index u with
  | none => ⟨w.values ++ [(u, es)], w.index ++ [(u, w.values.length)]⟩
  | some i => ⟨setSnd w.values i es, w.index⟩

/-- Source WorkspaceEdit.get. The empty-list fallback of the out-of-range
branch is unreachable whenever the index is consistent with the values
array, which WF below states and every reachable state satisfies. -/
def get (w : WorkspaceEdit) (u : Uri) : GetResult :=
  match lookupIdx w.index u with
  | none => GetResult.boolFalse
  | some i => GetResult.edits (((w.values[i]?).map Prod.snd).getD [])

/-- Source WorkspaceEdit.replace: build the TextEdit, then push it onto
the existing aliased array when get returned one (the truthiness test of
the source holds exactly when the key is present, an empty stored array
being truthy), else set a fresh singleton list. -/
def replace (w : WorkspaceEdit) (u : Uri) (r : Range) (t : String) :
    WorkspaceEdit :=
  match lookupIdx w.index u with
  | some i => ⟨pushSnd w.values i ⟨r, t⟩, w.index⟩
  | none => set w u [⟨r, t⟩]

/-- Source WorkspaceEdit.insert: replace at an empty range. -/
def insert (w : WorkspaceEdit) (u : Uri) (p : Position) (t : String) :
    WorkspaceEdit :=
  replace w u (Range.fromPositions p p) t

/-- Source WorkspaceEdit.delete: replace with empty text. -/
def delete (w : WorkspaceEdit) (u : Uri) (r : Range) : WorkspaceEdit :=
  replace w u r ""

/-- Source WorkspaceEdit.size: the number of entries. -/
def size (w : WorkspaceEdit) : Nat := w.values.length

/-- Source WorkspaceEdit.entries. -/
def entries (w : WorkspaceEdit) : List (Uri × List TextEdit) := w.values

end WorkspaceEdit

/-- The index entries the operations maintain for a values array, keys in
entry order with their positions counted from k. -/
def enumIndexFrom : Nat → List (Uri × List TextEdit) → List (String × Nat)
  | _, [] => []
  | k, p :: rest => (p.1, k) :: enumIndexFrom (k + 1) rest

/-- Consistency of a WorkspaceEdit state: the index is exactly the key of
each entry mapped to its position, and keys are pairwise distinct. Both
hold at construction and are preserved by every operation. -/
def WF (w : WorkspaceEdit) : Prop :=
  w.index = enumIndexFrom 0 w.values ∧ (w.values.map Prod.fst).Nodup

instance (w : WorkspaceEdit) : Decidable (WF w) := by
  unfold WF; infer_instance

section WorkspaceLemmas

lemma lookup_enum_some {l : List (Uri × List TextEdit)} {k n : Nat}
    {s : String} (h : lookupIdx (enumIndexFrom k l) s = some n) :
    ∃ j p, l[j]? = some p ∧ p.1 = s ∧ n = k + j := by
  induction l generalizing k with
  | nil => exact absurd h (by simp [enumIndexFrom, lookupIdx])
  | cons q rest ih =>
    unfold enumIndexFrom lookupIdx at h
    by_cases hq : q.1 = s
    · rw [if_pos hq] at h
      refine ⟨0, q, by simp, hq, ?_⟩
      simp only [Option.some.injEq] at h
      omega
    · rw [if_neg hq] at h
      obtain ⟨j, p, hget, hkey, hn⟩ := ih h
      exact ⟨j + 1, p, by simpa using hget, hkey, by omega⟩

lemma enum_lookup_of_getElem {l : List (Uri × List TextEdit)}
    (hnd : (l.map Prod.fst).Nodup) {i : Nat} {p : Uri × List TextEdit}
    (h : l[i]? = some p) (k : Nat) :
    lookupIdx (enumIndexFrom k l) p.1 = some (k + i) := by
  induction l generalizing i k with
  | nil => exact absurd h (by simp)
  | cons q rest ih =>
    unfold enumIndexFrom lookupIdx
    match i, h with
    | 0, h =>
      simp only [List.getElem?_cons_zero, Option.some.injEq] at h
      rw [h]
      rw [if_pos rfl]
      simp
    | Nat.succ j, h =>
      simp only [List.getElem?_cons_succ] at h
      have hmem : p ∈ rest := (List.mem_iff_getElem?).mpr ⟨j, h⟩
      have hkeymem : p.1 ∈ rest.map Prod.fst := List.mem_map_of_mem _ hmem
      simp only [List.map_cons, List.nodup_cons] at hnd
      have hne : ¬ q.1 = p.1 := fun he => hnd.1 (he ▸ hkeymem)
      rw [if_neg hne]
      have := ih hnd.2 h (k + 1)
      rw [this]
      congr 1
      omega

lemma WF_lookup_some {w : WorkspaceEdit} (hw : WF w) {s : String} {n : Nat}
    (h : lookupIdx w.index s = some n) :
    ∃ p, w.values[n]? = some p ∧ p.1 = s := by
  rw [hw.1] at h
  obtain ⟨j, p, hget, hkey, hn⟩ := lookup_enum_some h
  exact ⟨p, by rw [show n = j by omega]; exact hget, hkey⟩

lemma WF_getElem_lookup {w : WorkspaceEdit} (hw : WF w) {i : Nat}
    {p : Uri × List TextEdit} (h : w.values[i]? = some p) :
    lookupIdx w.index p.1 = some i := by
  rw [hw.1]
  have := enum_lookup_of_getElem hw.2 h 0
  simpa using this

lemma setSnd_getElem_self {l : List (Uri × List TextEdit)} {i : Nat}
    {p : Uri × List TextEdit} (h : l[i]? = some p) (es : List TextEdit) :
    (setSnd l i es)[i]? = some (p.1, es) := by
  induction l generalizing i with
  | nil => exact absurd h (by simp)
  | cons q rest ih =>
    match i, h with
    | 0, h =>
      simp only [List.getElem?_cons_zero, Option.some.injEq] at h
      rw [h]
      simp [setSnd]
    | Nat.succ j, h =>
      simp only [List.getElem?_cons_succ] at h
      show (setSnd (q :: rest) (j + 1) es)[j + 1]? = some (p.1, es)
      simp only [setSnd]
      simpa using ih h

lemma pushSnd_getElem_self {l : List (Uri × List TextEdit)} {i : Nat}
    {p : Uri × List TextEdit} (h : l[i]? = some p) (e : TextEdit) :
    (pushSnd l i e)[i]? = some (p.1, p.2 ++ [e]) := by
  induction l generalizing i with
  | nil => exact absurd h (by simp)
  | cons q rest ih =>
    match i, h with
    | 0, h =>
      simp only [List.getElem?_cons_zero, Option.some.injEq] at h
      rw [h]
      simp [pushSnd]
    | Nat.succ j, h =>
      simp only [List.getElem?_cons_succ] at h
      show (pushSnd (q :: rest) (j + 1) e)[j + 1]? = some (p.1, p.2 ++ [e])
      simp only [pushSnd]
      simpa using ih h

lemma lookupIdx_append_of_none {l1 l2 : List (String × Nat)} {s : String}
    (h : lookupIdx l1 s = none) :
    lookupIdx (l1 ++ l2) s = lookupIdx l2 s := by
  induction l1 with
  | nil => rfl
  | cons q rest ih =>
    rw [List.cons_append]
    simp only [lookupIdx] at h ⊢
    by_cases hq : q.1 = s
    · rw [if_pos hq] at h
      exact absurd h (by simp)
    · rw [if_neg hq] at h ⊢
      exact ih h

lemma has_false_lookup_none {w : WorkspaceEdit} {u : Uri}
    (h : WorkspaceEdit.has w u = false) : lookupIdx w.index u = none := by
  unfold WorkspaceEdit.has at h
  cases hl : lookupIdx w.index u with
  | none => rfl
  | some i => rw [hl] at h; exact absurd h (by simp)

end WorkspaceLemmas

/-- C8: with the index consistent (WF, true of every reachable state),
set on an existing key replaces the edit sequence of that key wholesale;
replace appends one TextEdit to the existing sequence and creates a
singleton sequence when the key is absent; insert and delete delegate to
replace; two replace calls for one resource starting from a fresh
WorkspaceEdit leave a single entry holding both TextEdits in call order;
and size counts distinct resources, not edits. -/
theorem C8_workspace_edit_keying :
    ∀ (w : WorkspaceEdit) (u : Uri) (es : List TextEdit) (r1 r2 : Range)
      (t1 t2 : String) (p1 : Position), WF w →
      (WorkspaceEdit.has w u = true →
        WorkspaceEdit.get (WorkspaceEdit.set w u es) u =
          GetResult.edits es) ∧
      (∀ es0, WorkspaceEdit.get w u = GetResult.edits es0 →
        WorkspaceEdit.get (WorkspaceEdit.replace w u r1 t1) u =
          GetResult.edits (es0 ++ [⟨r1, t1⟩])) ∧
      (WorkspaceEdit.has w u = false →
        WorkspaceEdit.get (WorkspaceEdit.replace w u r1 t1) u =
          GetResult.edits [⟨r1, t1⟩]) ∧
      (WorkspaceEdit.insert w u p1 t1 =
        WorkspaceEdit.replace w u (Range.fromPositions p1 p1) t1) ∧
      (WorkspaceEdit.delete w u r1 = WorkspaceEdit.replace w u r1 "") ∧
      ((WorkspaceEdit.replace (WorkspaceEdit.replace emptyWE u r1 t1) u
          r2 t2).values = [(u, [⟨r1, t1⟩, ⟨r2, t2⟩])]) ∧
      (WorkspaceEdit.size
          (WorkspaceEdit.replace (WorkspaceEdit.replace emptyWE u r1 t1) u
            r2 t2) = 1) ∧
      (WorkspaceEdit.size w = ((w.values.map Prod.fst).dedup).length) := by
  intro w u es r1 r2 t1 t2 p1 hw
  refine ⟨?_, ?_, ?_, rfl, rfl, ?_, ?_, ?_⟩
  · intro hhas
    unfold WorkspaceEdit.has at hhas
    obtain ⟨i, hl⟩ := Option.isSome_iff_exists.mp hhas
    obtain ⟨p, hget, hkey⟩ := WF_lookup_some hw hl
    simp only [WorkspaceEdit.set, hl, WorkspaceEdit.get,
      setSnd_getElem_self hget es]
    simp
  · intro es0 hg
    cases hl : lookupIdx w.index u with
    | none =>
      simp only [WorkspaceEdit.get, hl] at hg
      exact absurd hg (by simp)
    | some i =>
      obtain ⟨p, hget, hkey⟩ := WF_lookup_some hw hl
      simp only [WorkspaceEdit.get, hl, hget] at hg
      simp only [Option.map_some', Option.getD_some,
        GetResult.edits.injEq] at hg
      simp only [WorkspaceEdit.replace, hl, WorkspaceEdit.get,
        pushSnd_getElem_self hget ⟨r1, t1⟩]
      simp [hg]
  · intro hhas
    have hl := has_false_lookup_none hhas
    simp only [WorkspaceEdit.replace, hl, WorkspaceEdit.set,
      WorkspaceEdit.get, lookupIdx_append_of_none hl]
    simp [lookupIdx, List.getElem?_concat_length]
  · simp [WorkspaceEdit.replace, WorkspaceEdit.set, lookupIdx, emptyWE,
      pushSnd]
  · simp [WorkspaceEdit.replace, WorkspaceEdit.set, WorkspaceEdit.size,
      lookupIdx, emptyWE, pushSnd]
  · unfold WorkspaceEdit.size
    rw [List.dedup_eq_self.mpr hw.2, List.length_map]

/-- A sample TextEdit used by concrete WorkspaceEdit states below. -/
def teSample : TextEdit := ⟨⟨⟨0, 0⟩, ⟨0, 1⟩⟩, "x"⟩

/-- A one-entry WorkspaceEdit reached from the fresh state by set. -/
def weOne : WorkspaceEdit := WorkspaceEdit.set emptyWE "a" [teSample]

/-- Witness for C8 at the one-entry state under the key a. -/
theorem C8_workspace_edit_keying_witness :
    (WorkspaceEdit.has weOne "a" = true →
      WorkspaceEdit.get (WorkspaceEdit.set weOne "a" []) "a" =
        GetResult.edits []) ∧
    (∀ es0, WorkspaceEdit.get weOne "a" = GetResult.edits es0 →
      WorkspaceEdit.get
          (WorkspaceEdit.replace weOne "a" ⟨⟨1, 0⟩, ⟨1, 2⟩⟩ "y") "a" =
        GetResult.edits (es0 ++ [⟨⟨⟨1, 0⟩, ⟨1, 2⟩⟩, "y"⟩])) ∧
    (WorkspaceEdit.has weOne "a" = false →
      WorkspaceEdit.get
          (WorkspaceEdit.replace weOne "a" ⟨⟨1, 0⟩, ⟨1, 2⟩⟩ "y") "a" =
        GetResult.edits [⟨⟨⟨1, 0⟩, ⟨1, 2⟩⟩, "y"⟩]) ∧
    (WorkspaceEdit.insert weOne "a" ⟨2, 2⟩ "y" =
      WorkspaceEdit.replace weOne "a" (Range.fromPositions ⟨2, 2⟩ ⟨2, 2⟩)
        "y") ∧
    (WorkspaceEdit.delete weOne "a" ⟨⟨1, 0⟩, ⟨1, 2⟩⟩ =
      WorkspaceEdit.replace weOne "a" ⟨⟨1, 0⟩, ⟨1, 2⟩⟩ "") ∧
    ((WorkspaceEdit.replace
        (WorkspaceEdit.replace emptyWE "a" ⟨⟨1, 0⟩, ⟨1, 2⟩⟩ "y") "a"
        ⟨⟨3, 0⟩, ⟨3, 2⟩⟩ "z").values =
      [("a", [⟨⟨⟨1, 0⟩, ⟨1, 2⟩⟩, "y"⟩, ⟨⟨⟨3, 0⟩, ⟨3, 2⟩⟩, "z"⟩])]) ∧
    (WorkspaceEdit.size
        (WorkspaceEdit.replace
          (WorkspaceEdit.replace emptyWE "a" ⟨⟨1, 0⟩, ⟨1, 2⟩⟩ "y") "a"
          ⟨⟨3, 0⟩, ⟨3, 2⟩⟩ "z") = 1) ∧
    (WorkspaceEdit.size weOne =
      ((weOne.values.map Prod.fst).dedup).length) :=
  C8_workspace_edit_keying weOne "a" [] ⟨⟨1, 0⟩, ⟨1, 2⟩⟩ ⟨⟨3, 0⟩, ⟨3, 2⟩⟩
    "y" "z" ⟨2, 2⟩ (by decide)

/-- C10: with the index consistent (WF), get of a resource never stored
returns the boolean false, a value distinct from every edit array
including the empty one, and has returns false; get of a stored resource
returns exactly the stored TextEdit array and has returns true. -/
theorem C10_get_false_for_missing :
    ∀ (w : WorkspaceEdit) (u : Uri), WF w →
      (WorkspaceEdit.has w u = false ↔
        WorkspaceEdit.get w u = GetResult.boolFalse) ∧
      (∀ es, (u, es) ∈ w.values →
        WorkspaceEdit.get w u = GetResult.edits es ∧
          WorkspaceEdit.has w u = true) := by
  intro w u hw
  constructor
  · cases hl : lookupIdx w.index u with
    | none =>
      simp only [WorkspaceEdit.has, WorkspaceEdit.get, hl]
      simp
    | some i =>
      obtain ⟨p, hget, hkey⟩ := WF_lookup_some hw hl
      simp only [WorkspaceEdit.has, WorkspaceEdit.get, hl, hget]
      simp
  · intro es hmem
    obtain ⟨i, hget⟩ := (List.mem_iff_getElem?).mp hmem
    have hl : lookupIdx w.index u = some i := WF_getElem_lookup hw hget
    simp only [WorkspaceEdit.has, WorkspaceEdit.get, hl, hget]
    simp

/-- Witness for C10 at the one-entry state: the stored key a and the
never-stored key b. -/
theorem C10_get_false_for_missing_witness :
    ((WorkspaceEdit.has weOne "b" = false ↔
        WorkspaceEdit.get weOne "b" = GetResult.boolFalse) ∧
      (∀ es, (("b" : Uri), es) ∈ weOne.values →
        WorkspaceEdit.get weOne "b" = GetResult.edits es ∧
          WorkspaceEdit.has weOne "b" = true)) ∧
    ((WorkspaceEdit.has weOne "a" = false ↔
        WorkspaceEdit.get weOne "a" = GetResult.boolFalse) ∧
      (∀ es, (("a" : Uri), es) ∈ weOne.values →
        WorkspaceEdit.get weOne "a" = GetResult.edits es ∧
          WorkspaceEdit.has weOne "a" = true)) :=
  ⟨C10_get_false_for_missing weOne "b" (by decide),
    C10_get_false_for_missing weOne "a" (by decide)⟩

end Shim
